import Mathlib

/-!
Verification development for FASTQFile.py (burkesquires/genomics).

The source file implements:
- `SequenceIdentifier.__init__` / `__repr__`: classification of a FASTQ
  sequence-identifier line against two anchored regular expressions
  (ILLUMINA18_SEQID and ILLUMINA_SEQID) and canonical re-serialization;
- `FastqRead.__init__`: construction of a 4-line read record, stripping
  whitespace from lines 2-4 with Python's str.strip();
- `FastqIterator.__init__` / `next`: a forward-only record stream over a
  line source, with conditional closing of the handle at EOF;
- `nreads`: a chunked newline-counting fast read counter.

Strings are embedded as `List Char`.  Each definition carries a comment
pointing at the source lines it embeds.
-/

/-- Python 2 `str.strip()` whitespace set: space, tab, LF, VT, FF, CR
(`string.whitespace`). -/
def isPySpace (c : Char) : Bool :=
  c = ' ' || c = '\t' || c = '\n' || c = '\x0b' || c = '\x0c' || c = '\r'

/-- Right half of Python `str.strip()`: drop trailing whitespace. -/
def pyRStrip (s : List Char) : List Char :=
  (s.reverse.dropWhile isPySpace).reverse

/-- Left half of Python `str.strip()`: drop leading whitespace. -/
def pyLStrip (s : List Char) : List Char :=
  s.dropWhile isPySpace

/-- Python `str.strip()`: drop leading and trailing whitespace
(FASTQFile.py line 159 `str(seqid).strip()`, lines 128-130). -/
def pyStrip (s : List Char) : List Char :=
  pyLStrip (pyRStrip s)

/-- Split a string at the first occurrence of character `c`: returns the
(`c`-free) prefix before the first `c` and the suffix after it, or `none`
when `c` does not occur. -/
def splitOnFirst (c : Char) : List Char → Option (List Char × List Char)
  | [] => none
  | x :: xs =>
    if x = c then some ([], xs)
    else
      match splitOnFirst c xs with
      | some (pre, post) => some (x :: pre, post)
      | none => none

theorem splitOnFirst_sound {c : Char} :
    ∀ {s pre post : List Char}, splitOnFirst c s = some (pre, post) →
      s = pre ++ c :: post ∧ c ∉ pre := by
  intro s
  induction s with
  | nil => intro pre post h; simp [splitOnFirst] at h
  | cons x xs ih =>
    intro pre post h
    by_cases hx : x = c
    · subst hx
      simp only [splitOnFirst, if_pos rfl, Option.some.injEq, Prod.mk.injEq] at h
      obtain ⟨rfl, rfl⟩ := h
      exact ⟨rfl, by simp⟩
    · simp only [splitOnFirst, if_neg hx] at h
      cases hrec : splitOnFirst c xs with
      | none => rw [hrec] at h; simp at h
      | some q =>
        obtain ⟨p, r⟩ := q
        rw [hrec] at h
        simp only [Option.some.injEq, Prod.mk.injEq] at h
        obtain ⟨rfl, rfl⟩ := h
        obtain ⟨heq, hmem⟩ := ih hrec
        constructor
        · simp [heq]
        · intro hc
          rcases List.mem_cons.mp hc with hc | hc
          · exact hx hc.symm
          · exact hmem hc

theorem splitOnFirst_complete {c : Char} :
    ∀ {pre : List Char} (post : List Char), c ∉ pre →
      splitOnFirst c (pre ++ c :: post) = some (pre, post) := by
  intro pre
  induction pre with
  | nil => intro post _; simp [splitOnFirst]
  | cons x xs ih =>
    intro post h
    have hx : x ≠ c := fun hc => h (by simp [hc])
    have hxs : c ∉ xs := fun hc => h (by simp [hc])
    simp only [List.cons_append, splitOnFirst, if_neg hx, List.append_eq, ih post hxs]

theorem splitOnFirst_none {c : Char} :
    ∀ {s : List Char}, c ∉ s → splitOnFirst c s = none := by
  intro s
  induction s with
  | nil => intro _; rfl
  | cons x xs ih =>
    intro h
    have hx : x ≠ c := fun hc => h (by simp [hc])
    have hxs : c ∉ xs := fun hc => h (by simp [hc])
    simp only [splitOnFirst, if_neg hx]
    rw [ih hxs]

/-- One regex capture group of shape `([^c]+)c`: a non-empty `c`-free field
followed by the literal delimiter `c`.  Returns the field and the rest. -/
def capture (c : Char) (s : List Char) : Option (List Char × List Char) :=
  (splitOnFirst c s).bind fun f => if f.1 = [] then none else some f

theorem capture_sound {c : Char} {s f r : List Char}
    (h : capture c s = some (f, r)) : s = f ++ c :: r ∧ c ∉ f ∧ f ≠ [] := by
  unfold capture at h
  cases hs : splitOnFirst c s with
  | none => rw [hs] at h; simp at h
  | some q =>
    obtain ⟨p, q2⟩ := q
    rw [hs, Option.some_bind] at h
    by_cases hp : p = []
    · simp only [hp, if_pos rfl] at h
      exact absurd h (by simp)
    · simp only [if_neg hp, Option.some.injEq, Prod.mk.injEq] at h
      obtain ⟨rfl, rfl⟩ := h
      obtain ⟨heq, hmem⟩ := splitOnFirst_sound hs
      exact ⟨heq, hmem, hp⟩

theorem capture_complete {c : Char} {f : List Char} (r : List Char)
    (hmem : c ∉ f) (hne : f ≠ []) : capture c (f ++ c :: r) = some (f, r) := by
  unfold capture
  rw [splitOnFirst_complete r hmem, Option.some_bind, if_neg hne]

/-- Capture groups of the ILLUMINA18_SEQID regular expression
(FASTQFile.py line 39), with the attribute names assigned to them in
`SequenceIdentifier.__init__` (lines 170-181). -/
structure Groups18 where
  instrument_name : List Char
  run_id : List Char
  flowcell_id : List Char
  flowcell_lane : List Char
  tile_no : List Char
  x_coord : List Char
  y_coord : List Char
  pair_id : List Char
  bad_read : List Char
  control_bit_flag : List Char
  index_sequence : List Char
deriving DecidableEq

/-- Capture groups of the ILLUMINA_SEQID regular expression
(FASTQFile.py line 44), with the attribute names assigned to them in
`SequenceIdentifier.__init__` (lines 184-192).  Group 6 of the regex is the
single-character class `([^/])`, so the multiplex index is one character. -/
structure GroupsIllumina where
  instrument_name : List Char
  flowcell_lane : List Char
  tile_no : List Char
  x_coord : List Char
  y_coord : List Char
  multiplex_index_no : Char
  pair_id : List Char
deriving DecidableEq

/-- The string a Groups18 decomposition denotes: the layout
`@i:r:f:l:t:x:y p:b:c:idx` used by both the regex and
`SequenceIdentifier.__repr__` (lines 199-209). -/
def rebuild18 (g : Groups18) : List Char :=
  '@' :: (g.instrument_name ++ ':' :: (g.run_id ++ ':' :: (g.flowcell_id ++
    ':' :: (g.flowcell_lane ++ ':' :: (g.tile_no ++ ':' :: (g.x_coord ++
    ':' :: (g.y_coord ++ ' ' :: (g.pair_id ++ ':' :: (g.bad_read ++
    ':' :: (g.control_bit_flag ++ ':' :: g.index_sequence))))))))))

/-- The string a GroupsIllumina decomposition denotes: the layout
`@i:l:t:x:y#m/p` used by both the regex and `SequenceIdentifier.__repr__`
(lines 211-217). -/
def rebuildIllumina (g : GroupsIllumina) : List Char :=
  '@' :: (g.instrument_name ++ ':' :: (g.flowcell_lane ++ ':' :: (g.tile_no ++
    ':' :: (g.x_coord ++ ':' :: (g.y_coord ++
    '#' :: g.multiplex_index_no :: '/' :: g.pair_id)))))

/-- Well-formedness of a Groups18 decomposition, transcribing the character
classes of ILLUMINA18_SEQID: groups 1-6 are `[^\:]+` (non-empty,
colon-free), group 7 is `[^ ]+` (non-empty, space-free), groups 8-10 are
`[^\:]+`, group 11 is `[^\:]*` (possibly empty, colon-free). -/
def WF18 (g : Groups18) : Prop :=
  g.instrument_name ≠ [] ∧ ':' ∉ g.instrument_name ∧
  g.run_id ≠ [] ∧ ':' ∉ g.run_id ∧
  g.flowcell_id ≠ [] ∧ ':' ∉ g.flowcell_id ∧
  g.flowcell_lane ≠ [] ∧ ':' ∉ g.flowcell_lane ∧
  g.tile_no ≠ [] ∧ ':' ∉ g.tile_no ∧
  g.x_coord ≠ [] ∧ ':' ∉ g.x_coord ∧
  g.y_coord ≠ [] ∧ ' ' ∉ g.y_coord ∧
  g.pair_id ≠ [] ∧ ':' ∉ g.pair_id ∧
  g.bad_read ≠ [] ∧ ':' ∉ g.bad_read ∧
  g.control_bit_flag ≠ [] ∧ ':' ∉ g.control_bit_flag ∧
  ':' ∉ g.index_sequence

/-- Well-formedness of a GroupsIllumina decomposition, transcribing the
character classes of ILLUMINA_SEQID: groups 1-4 are `[^\:]+`, group 5 is
`[^\#]+` (non-empty, hash-free, colons allowed), group 6 is `([^/])` (one
character other than the slash), group 7 is `(.+)` (non-empty, and the dot
does not match a newline). -/
def WFIllumina (g : GroupsIllumina) : Prop :=
  g.instrument_name ≠ [] ∧ ':' ∉ g.instrument_name ∧
  g.flowcell_lane ≠ [] ∧ ':' ∉ g.flowcell_lane ∧
  g.tile_no ≠ [] ∧ ':' ∉ g.tile_no ∧
  g.x_coord ≠ [] ∧ ':' ∉ g.x_coord ∧
  g.y_coord ≠ [] ∧ '#' ∉ g.y_coord ∧
  g.multiplex_index_no ≠ '/' ∧
  g.pair_id ≠ [] ∧ '\n' ∉ g.pair_id

/-- Matcher for ILLUMINA18_SEQID (FASTQFile.py line 39):
`^@([^\:]+):([^\:]+):([^\:]+):([^\:]+):([^\:]+):([^\:]+):([^ ]+) ([^\:]+):([^\:]+):([^\:]+):([^\:]*)$`.
Each `([^c]+)c` step is forced to stop at the first occurrence of its
delimiter, so the backtracking regex engine and this deterministic parser
accept the same strings with the same groups. -/
def match18 (s : List Char) : Option Groups18 :=
  match s with
  | [] => none
  | a :: r0 =>
    if a = '@' then
      (capture ':' r0).bind fun q1 =>
      (capture ':' q1.2).bind fun q2 =>
      (capture ':' q2.2).bind fun q3 =>
      (capture ':' q3.2).bind fun q4 =>
      (capture ':' q4.2).bind fun q5 =>
      (capture ':' q5.2).bind fun q6 =>
      (capture ' ' q6.2).bind fun q7 =>
      (capture ':' q7.2).bind fun q8 =>
      (capture ':' q8.2).bind fun q9 =>
      (capture ':' q9.2).bind fun q10 =>
      if ':' ∈ q10.2 then none
      else some ⟨q1.1, q2.1, q3.1, q4.1, q5.1, q6.1, q7.1, q8.1, q9.1, q10.1, q10.2⟩
    else none

/-- Tail of the ILLUMINA_SEQID regex after the literal `#`: one character
other than `/` (group 6), the literal `/`, then `(.+)$` (group 7, non-empty
and newline-free because the dot does not match a newline and the input has
been stripped of trailing whitespace). -/
def illuminaTail (g1 g2 g3 g4 g5 : List Char) : List Char → Option GroupsIllumina
  | m :: d :: p =>
    if m ≠ '/' ∧ d = '/' ∧ p ≠ [] ∧ '\n' ∉ p then
      some ⟨g1, g2, g3, g4, g5, m, p⟩
    else none
  | _ => none

/-- Matcher for ILLUMINA_SEQID (FASTQFile.py line 44):
`^@([^\:]+):([^\:]+):([^\:]+):([^\:]+):([^\#]+)#([^/])/(.+)$`. -/
def matchIllumina (s : List Char) : Option GroupsIllumina :=
  match s with
  | [] => none
  | a :: r0 =>
    if a = '@' then
      (capture ':' r0).bind fun q1 =>
      (capture ':' q1.2).bind fun q2 =>
      (capture ':' q2.2).bind fun q3 =>
      (capture ':' q3.2).bind fun q4 =>
      (capture '#' q4.2).bind fun q5 =>
      illuminaTail q1.1 q2.1 q3.1 q4.1 q5.1 q5.2
    else none

theorem match18_sound {s : List Char} {g : Groups18} (h : match18 s = some g) :
    s = rebuild18 g ∧ WF18 g := by
  cases s with
  | nil => simp [match18] at h
  | cons a r0 =>
    by_cases ha : a = '@'
    case neg => simp [match18, if_neg ha] at h
    subst ha
    simp only [match18, if_true] at h
    rw [Option.bind_eq_some] at h
    obtain ⟨q1, h1, h⟩ := h
    rw [Option.bind_eq_some] at h
    obtain ⟨q2, h2, h⟩ := h
    rw [Option.bind_eq_some] at h
    obtain ⟨q3, h3, h⟩ := h
    rw [Option.bind_eq_some] at h
    obtain ⟨q4, h4, h⟩ := h
    rw [Option.bind_eq_some] at h
    obtain ⟨q5, h5, h⟩ := h
    rw [Option.bind_eq_some] at h
    obtain ⟨q6, h6, h⟩ := h
    rw [Option.bind_eq_some] at h
    obtain ⟨q7, h7, h⟩ := h
    rw [Option.bind_eq_some] at h
    obtain ⟨q8, h8, h⟩ := h
    rw [Option.bind_eq_some] at h
    obtain ⟨q9, h9, h⟩ := h
    rw [Option.bind_eq_some] at h
    obtain ⟨q10, h10, h⟩ := h
    by_cases hm : ':' ∈ q10.2
    · rw [if_pos hm] at h; simp at h
    rw [if_neg hm] at h
    obtain rfl : (⟨q1.1, q2.1, q3.1, q4.1, q5.1, q6.1, q7.1, q8.1, q9.1, q10.1, q10.2⟩ :
        Groups18) = g := Option.some.inj h
    obtain ⟨e1, m1, n1⟩ := capture_sound h1
    obtain ⟨e2, m2, n2⟩ := capture_sound h2
    obtain ⟨e3, m3, n3⟩ := capture_sound h3
    obtain ⟨e4, m4, n4⟩ := capture_sound h4
    obtain ⟨e5, m5, n5⟩ := capture_sound h5
    obtain ⟨e6, m6, n6⟩ := capture_sound h6
    obtain ⟨e7, m7, n7⟩ := capture_sound h7
    obtain ⟨e8, m8, n8⟩ := capture_sound h8
    obtain ⟨e9, m9, n9⟩ := capture_sound h9
    obtain ⟨e10, m10, n10⟩ := capture_sound h10
    constructor
    · simp only [rebuild18, List.cons.injEq, true_and]
      rw [e1, e2, e3, e4, e5, e6, e7, e8, e9, e10]
    · exact ⟨n1, m1, n2, m2, n3, m3, n4, m4, n5, m5, n6, m6, n7, m7, n8, m8, n9, m9,
        n10, m10, hm⟩

theorem match18_complete {g : Groups18} (h : WF18 g) :
    match18 (rebuild18 g) = some g := by
  obtain ⟨f1, f2, f3, f4, f5, f6, y, p, b, c, idx⟩ := g
  obtain ⟨n1, m1, n2, m2, n3, m3, n4, m4, n5, m5, n6, m6, n7, m7, n8, m8, n9, m9,
    n10, m10, hm⟩ := h
  simp only [rebuild18]
  simp only [match18, if_true,
    capture_complete _ m1 n1, Option.some_bind,
    capture_complete _ m2 n2,
    capture_complete _ m3 n3,
    capture_complete _ m4 n4,
    capture_complete _ m5 n5,
    capture_complete _ m6 n6,
    capture_complete _ m7 n7,
    capture_complete _ m8 n8,
    capture_complete _ m9 n9,
    capture_complete _ m10 n10]
  rw [if_neg hm]

theorem matchIllumina_sound {s : List Char} {g : GroupsIllumina}
    (h : matchIllumina s = some g) : s = rebuildIllumina g ∧ WFIllumina g := by
  cases s with
  | nil => simp [matchIllumina] at h
  | cons a r0 =>
    by_cases ha : a = '@'
    case neg => simp [matchIllumina, if_neg ha] at h
    subst ha
    simp only [matchIllumina, if_true] at h
    rw [Option.bind_eq_some] at h
    obtain ⟨q1, h1, h⟩ := h
    rw [Option.bind_eq_some] at h
    obtain ⟨q2, h2, h⟩ := h
    rw [Option.bind_eq_some] at h
    obtain ⟨q3, h3, h⟩ := h
    rw [Option.bind_eq_some] at h
    obtain ⟨q4, h4, h⟩ := h
    rw [Option.bind_eq_some] at h
    obtain ⟨q5, h5, h⟩ := h
    match hq : q5.2 with
    | [] => rw [hq] at h; simp [illuminaTail] at h
    | [m] => rw [hq] at h; simp [illuminaTail] at h
    | m :: d :: p =>
      rw [hq] at h
      simp only [illuminaTail] at h
      by_cases hcond : m ≠ '/' ∧ d = '/' ∧ p ≠ [] ∧ '\n' ∉ p
      case neg => rw [if_neg hcond] at h; simp at h
      rw [if_pos hcond] at h
      obtain ⟨hm, rfl, hp, hnl⟩ := hcond
      obtain rfl : (⟨q1.1, q2.1, q3.1, q4.1, q5.1, m, p⟩ : GroupsIllumina) = g :=
        Option.some.inj h
      obtain ⟨e1, mm1, nn1⟩ := capture_sound h1
      obtain ⟨e2, mm2, nn2⟩ := capture_sound h2
      obtain ⟨e3, mm3, nn3⟩ := capture_sound h3
      obtain ⟨e4, mm4, nn4⟩ := capture_sound h4
      obtain ⟨e5, mm5, nn5⟩ := capture_sound h5
      constructor
      · simp only [rebuildIllumina, List.cons.injEq, true_and]
        rw [e1, e2, e3, e4, e5, hq]
      · exact ⟨nn1, mm1, nn2, mm2, nn3, mm3, nn4, mm4, nn5, mm5, hm, hp, hnl⟩

theorem matchIllumina_complete {g : GroupsIllumina} (h : WFIllumina g) :
    matchIllumina (rebuildIllumina g) = some g := by
  obtain ⟨f1, f2, f3, f4, y, m, p⟩ := g
  obtain ⟨n1, m1, n2, m2, n3, m3, n4, m4, n5, m5, hm, hp, hnl⟩ := h
  simp only [rebuildIllumina]
  simp only [matchIllumina, if_true,
    capture_complete _ m1 n1, Option.some_bind,
    capture_complete _ m2 n2,
    capture_complete _ m3 n3,
    capture_complete _ m4 n4,
    capture_complete _ m5 n5]
  simp [illuminaTail, hm, hp, hnl]

/-- Value of the `format` attribute set by `SequenceIdentifier.__init__`
(lines 160, 169, 183): the source uses the strings `illumina18` and
`illumina`, and leaves `None` for an unrecognized identifier. -/
inductive SeqFormat where
  | illumina18
  | illumina
  | unrecognized
deriving DecidableEq

/-- Decomposition outcome stored by `SequenceIdentifier.__init__`: the
capture groups of whichever regex matched, or nothing. -/
inductive SeqIdParse where
  | illumina18 (g : Groups18)
  | illumina (g : GroupsIllumina)
  | unrecognized
deriving DecidableEq

/-- Model of a `SequenceIdentifier` object: the stripped identifier line
(`self.__seqid`, line 159) together with the decomposition outcome. -/
structure SequenceIdentifier where
  seqid : List Char
  parse : SeqIdParse
deriving DecidableEq

/-- Model of `SequenceIdentifier.__init__` (FASTQFile.py lines 152-195):
strip the line, try ILLUMINA18_SEQID first, then ILLUMINA_SEQID, else keep
only the raw stripped text. -/
def classify (s : List Char) : SequenceIdentifier :=
  match match18 (pyStrip s) with
  | some g => ⟨pyStrip s, SeqIdParse.illumina18 g⟩
  | none =>
    match matchIllumina (pyStrip s) with
    | some g => ⟨pyStrip s, SeqIdParse.illumina g⟩
    | none => ⟨pyStrip s, SeqIdParse.unrecognized⟩

/-- The `format` attribute of a parsed identifier (lines 169, 183, 160). -/
def SequenceIdentifier.format (si : SequenceIdentifier) : SeqFormat :=
  match si.parse with
  | SeqIdParse.illumina18 _ => SeqFormat.illumina18
  | SeqIdParse.illumina _ => SeqFormat.illumina
  | SeqIdParse.unrecognized => SeqFormat.unrecognized

/-- Model of `SequenceIdentifier.__repr__` (FASTQFile.py lines 197-220):
rebuild the canonical layout from the captured fields for the two known
grammars, and return the stored stripped text otherwise. -/
def SequenceIdentifier.serialize (si : SequenceIdentifier) : List Char :=
  match si.parse with
  | SeqIdParse.illumina18 g => rebuild18 g
  | SeqIdParse.illumina g => rebuildIllumina g
  | SeqIdParse.unrecognized => si.seqid

theorem classify_seqid (s : List Char) : (classify s).seqid = pyStrip s := by
  unfold classify
  cases match18 (pyStrip s) with
  | some g => rfl
  | none =>
    cases matchIllumina (pyStrip s) with
    | some g => rfl
    | none => rfl

theorem classify_parse_illumina18 {s : List Char} {g : Groups18}
    (h : match18 (pyStrip s) = some g) :
    (classify s).parse = SeqIdParse.illumina18 g := by
  unfold classify
  rw [h]

theorem classify_parse_illumina {s : List Char} {g : GroupsIllumina}
    (h18 : match18 (pyStrip s) = none) (h : matchIllumina (pyStrip s) = some g) :
    (classify s).parse = SeqIdParse.illumina g := by
  unfold classify
  rw [h18, h]

theorem classify_parse_unrecognized {s : List Char}
    (h18 : match18 (pyStrip s) = none) (hil : matchIllumina (pyStrip s) = none) :
    (classify s).parse = SeqIdParse.unrecognized := by
  unfold classify
  rw [h18, hil]

/-- Model of a `FastqRead` object (FASTQFile.py lines 117-130): the raw
identifier line is stored unmodified in `__raw_attributes` for lazy
parsing, while lines 2-4 are stored after Python `str.strip()`. -/
structure FastqRead where
  rawSeqid : List Char
  sequence : List Char
  optid : List Char
  quality : List Char
deriving DecidableEq

/-- Model of `FastqRead.__init__` (lines 126-130): note that the source
applies full `str.strip()` to lines 2-4, not a removal of the line
terminator only. -/
def mkFastqRead (seqid_line seq_line optid_line quality_line : List Char) : FastqRead :=
  ⟨seqid_line, pyStrip seq_line, pyStrip optid_line, pyStrip quality_line⟩

/-- Model of the lazy `seqid` property (lines 132-137): the identifier is
parsed from the stored raw line on first access. -/
def FastqRead.seqid (r : FastqRead) : SequenceIdentifier :=
  classify r.rawSeqid

/-- Model of Python `file.readline()` on the remaining content: returns the
next line including its terminator (or the unterminated remainder at end of
file, or the empty string when the content is exhausted) together with the
content after it. -/
def readline (s : List Char) : List Char × List Char :=
  match splitOnFirst '\n' s with
  | some (l, r) => (l ++ ['\n'], r)
  | none => (s, [])

/-- Model of one call of `FastqIterator.next` (FASTQFile.py lines 90-103)
restricted to the data it reads: four `readline` calls; if the fourth line
is non-empty a `FastqRead` is built from the four lines, otherwise the
iteration stops (`raise StopIteration`). -/
def nextRead (s : List Char) : Option (FastqRead × List Char) :=
  if (readline (readline (readline (readline s).2).2).2).1 = [] then none
  else
    some (mkFastqRead (readline s).1 (readline (readline s).2).1
        (readline (readline (readline s).2).2).1
        (readline (readline (readline (readline s).2).2).2).1,
      (readline (readline (readline (readline s).2).2).2).2)

theorem readline_nil : readline [] = ([], []) := rfl

theorem readline_encode {l : List Char} (rest : List Char) (h : '\n' ∉ l) :
    readline (l ++ '\n' :: rest) = (l ++ ['\n'], rest) := by
  unfold readline
  rw [splitOnFirst_complete rest h]

theorem readline_no_newline {s : List Char} (h : '\n' ∉ s) :
    readline s = (s, []) := by
  unfold readline
  rw [splitOnFirst_none h]

theorem readline_snd_le (s : List Char) : (readline s).2.length ≤ s.length := by
  unfold readline
  cases hs : splitOnFirst '\n' s with
  | none => simp
  | some q =>
    obtain ⟨l, r⟩ := q
    obtain ⟨heq, -⟩ := splitOnFirst_sound hs
    subst heq
    simp only [List.length_append, List.length_cons]
    omega

theorem readline_snd_lt {s : List Char} (h : (readline s).1 ≠ []) :
    (readline s).2.length < s.length := by
  unfold readline at *
  cases hs : splitOnFirst '\n' s with
  | none =>
    rw [hs] at h
    simp only at h
    simpa using List.length_pos.mpr h
  | some q =>
    obtain ⟨l, r⟩ := q
    obtain ⟨heq, -⟩ := splitOnFirst_sound hs
    subst heq
    simp only [List.length_append, List.length_cons]
    omega

theorem nextRead_length_lt {s : List Char} {r : FastqRead} {rest : List Char}
    (h : nextRead s = some (r, rest)) : rest.length < s.length := by
  unfold nextRead at h
  by_cases h4 : (readline (readline (readline (readline s).2).2).2).1 = []
  · rw [if_pos h4] at h
    simp at h
  · rw [if_neg h4] at h
    simp only [Option.some.injEq, Prod.mk.injEq] at h
    obtain ⟨-, rfl⟩ := h
    calc (readline (readline (readline (readline s).2).2).2).2.length
        < (readline (readline (readline s).2).2).2.length := readline_snd_lt h4
      _ ≤ (readline (readline s).2).2.length := readline_snd_le _
      _ ≤ (readline s).2.length := readline_snd_le _
      _ ≤ s.length := readline_snd_le _

/-- Draining the iterator: the list of records produced by repeated calls
of `FastqIterator.next` until `StopIteration` (lines 90-103). -/
def drain (s : List Char) : List FastqRead :=
  match h : nextRead s with
  | none => []
  | some (r, rest) => r :: drain rest
termination_by s.length
decreasing_by exact nextRead_length_lt h

theorem drain_none {s : List Char} (h : nextRead s = none) : drain s = [] := by
  rw [drain, h]

theorem drain_some {s : List Char} {r : FastqRead} {rest : List Char}
    (h : nextRead s = some (r, rest)) : drain s = r :: drain rest := by
  rw [drain, h]

/-- Model of a `FastqIterator` object (FASTQFile.py lines 69-88): the
`fastq_file` constructor argument (kept in `self.__fastq_file`), the
remaining content of the line source `self.__fp`, and whether
`self.__fp.close()` has been called. -/
structure FastqIterator where
  fastq_file : Option (List Char)
  content : List Char
  closed : Bool
deriving DecidableEq

/-- Construction `FastqIterator(fastq_file)` (lines 81-86): a path is given,
the file is opened by the iterator itself; `content` abstracts what the
opened handle will yield. -/
def FastqIterator.fromPath (path content : List Char) : FastqIterator :=
  ⟨some path, content, false⟩

/-- Construction `FastqIterator(fp=fp)` (lines 81, 87-88): an already-open
handle is supplied, so `self.__fastq_file` stays `None`. -/
def FastqIterator.fromHandle (content : List Char) : FastqIterator :=
  ⟨none, content, false⟩

/-- Model of `FastqIterator.next` (FASTQFile.py lines 90-103) including the
close behaviour at end of file: on `StopIteration` the source runs
`if self.__fastq_file is None: self.__fp.close()` (lines 101-102), so the
handle is closed exactly when the iterator was built from an external
handle. -/
def FastqIterator.nextStep (it : FastqIterator) : Option FastqRead × FastqIterator :=
  match nextRead it.content with
  | some (r, rest) => (some r, ⟨it.fastq_file, rest, it.closed⟩)
  | none => (none, ⟨it.fastq_file, [], it.closed || it.fastq_file.isNone⟩)

/-- A well-formed FASTQ payload: every line terminated by a newline. -/
def encodeLines : List (List Char) → List Char
  | [] => []
  | l :: ls => l ++ '\n' :: encodeLines ls

/-- A FASTQ payload whose final line is not newline-terminated. -/
def encodeNoFinal : List (List Char) → List Char
  | [] => []
  | [l] => l
  | l :: l2 :: ls => l ++ '\n' :: encodeNoFinal (l2 :: ls)

/-- The records the iterator is expected to produce from a list of lines,
one record per 4-line group, in source order. -/
def recordsOf : List (List Char) → List FastqRead
  | l1 :: l2 :: l3 :: l4 :: rest =>
    mkFastqRead (l1 ++ ['\n']) (l2 ++ ['\n']) (l3 ++ ['\n']) (l4 ++ ['\n']) ::
      recordsOf rest
  | _ => []

/-- The chunked line-counting loop of `nreads` (FASTQFile.py lines 256-261):
read 1 MiB at a time and add up the newline counts of the chunks. -/
def bufCount (acc : Nat) (s : List Char) : Nat :=
  if s = [] then acc
  else bufCount (acc + (s.take 1048576).count '\n') (s.drop 1048576)
termination_by s.length
decreasing_by
  rename_i hs
  simp only [List.length_drop]
  have : 0 < s.length := List.length_pos.mpr hs
  omega

/-- Message of the exception raised by `nreads` (line 265). -/
def badReadCountMsg : List Char :=
  String.toList "Bad read count (not fastq file, or corrupted?)"

/-- Model of `nreads` (FASTQFile.py lines 226-266) on the content of its
source: count newlines in 1 MiB chunks, raise when the count is not a
multiple of 4, otherwise return the integer quotient by 4. -/
def nreads (content : List Char) : Except (List Char) Nat :=
  if bufCount 0 content % 4 ≠ 0 then Except.error badReadCountMsg
  else Except.ok (bufCount 0 content / 4)

theorem nextRead_nil : nextRead [] = none := rfl

theorem nextRead_cycle {l1 l2 l3 l4 : List Char} (rest : List Char)
    (h1 : '\n' ∉ l1) (h2 : '\n' ∉ l2) (h3 : '\n' ∉ l3) (h4 : '\n' ∉ l4) :
    nextRead (l1 ++ '\n' :: (l2 ++ '\n' :: (l3 ++ '\n' :: (l4 ++ '\n' :: rest)))) =
      some (mkFastqRead (l1 ++ ['\n']) (l2 ++ ['\n']) (l3 ++ ['\n']) (l4 ++ ['\n']),
        rest) := by
  unfold nextRead
  rw [readline_encode _ h1]
  simp only
  rw [readline_encode _ h2]
  simp only
  rw [readline_encode _ h3]
  simp only
  rw [readline_encode _ h4]
  simp only
  rw [if_neg (by simp)]

theorem nextRead_last {l1 l2 l3 l4 : List Char}
    (h1 : '\n' ∉ l1) (h2 : '\n' ∉ l2) (h3 : '\n' ∉ l3) (h4 : '\n' ∉ l4)
    (hne : l4 ≠ []) :
    nextRead (l1 ++ '\n' :: (l2 ++ '\n' :: (l3 ++ '\n' :: l4))) =
      some (mkFastqRead (l1 ++ ['\n']) (l2 ++ ['\n']) (l3 ++ ['\n']) l4, []) := by
  unfold nextRead
  rw [readline_encode _ h1]
  simp only
  rw [readline_encode _ h2]
  simp only
  rw [readline_encode _ h3]
  simp only
  rw [readline_no_newline h4]
  simp only
  rw [if_neg hne]

theorem drain_nil : drain [] = [] := drain_none nextRead_nil

theorem drain_encodeLines :
    ∀ (n : Nat) (ls : List (List Char)), (∀ l ∈ ls, '\n' ∉ l) →
      ls.length = 4 * n → drain (encodeLines ls) = recordsOf ls := by
  intro n
  induction n with
  | zero =>
    intro ls _ hlen
    have : ls = [] := List.eq_nil_of_length_eq_zero (by omega)
    subst this
    simp only [encodeLines, recordsOf, drain_nil]
  | succ k ih =>
    intro ls hnl hlen
    rcases ls with _ | ⟨l1, _ | ⟨l2, _ | ⟨l3, _ | ⟨l4, rest⟩⟩⟩⟩ <;>
      simp only [List.length_nil, List.length_cons] at hlen <;> try omega
    have hm1 : '\n' ∉ l1 := hnl l1 (by simp)
    have hm2 : '\n' ∉ l2 := hnl l2 (by simp)
    have hm3 : '\n' ∉ l3 := hnl l3 (by simp)
    have hm4 : '\n' ∉ l4 := hnl l4 (by simp)
    have hstep : encodeLines (l1 :: l2 :: l3 :: l4 :: rest) =
        l1 ++ '\n' :: (l2 ++ '\n' :: (l3 ++ '\n' :: (l4 ++ '\n' :: encodeLines rest))) := by
      simp [encodeLines]
    rw [hstep, drain_some (nextRead_cycle (encodeLines rest) hm1 hm2 hm3 hm4)]
    simp only [recordsOf, List.cons.injEq, true_and]
    exact ih rest (fun l hl => hnl l (by simp [hl])) (by omega)

theorem recordsOf_length :
    ∀ (n : Nat) (ls : List (List Char)), ls.length = 4 * n →
      (recordsOf ls).length = n := by
  intro n
  induction n with
  | zero =>
    intro ls hlen
    have : ls = [] := List.eq_nil_of_length_eq_zero (by omega)
    subst this
    rfl
  | succ k ih =>
    intro ls hlen
    rcases ls with _ | ⟨l1, _ | ⟨l2, _ | ⟨l3, _ | ⟨l4, rest⟩⟩⟩⟩ <;>
      simp only [List.length_nil, List.length_cons] at hlen <;> try omega
    simp only [recordsOf, List.length_cons]
    rw [ih rest (by omega)]

theorem dropWhile_append_all {p : Char → Bool} :
    ∀ {a : List Char} (b : List Char), (∀ c ∈ a, p c = true) →
      (a ++ b).dropWhile p = b.dropWhile p := by
  intro a
  induction a with
  | nil => intro b _; rfl
  | cons x xs ih =>
    intro b h
    simp only [List.cons_append, List.dropWhile, h x (by simp)]
    exact ih b (fun c hc => h c (by simp [hc]))

theorem dropWhile_cons_neg {p : Char → Bool} {x : Char} (xs : List Char)
    (h : p x = false) : (x :: xs).dropWhile p = x :: xs := by
  simp [List.dropWhile, h]

theorem pyStrip_append_newline (l : List Char) :
    pyStrip (l ++ ['\n']) = pyStrip l := by
  unfold pyStrip pyLStrip pyRStrip
  have : (l ++ ['\n']).reverse = '\n' :: l.reverse := by simp
  rw [this]
  have : List.dropWhile isPySpace ('\n' :: l.reverse) =
      List.dropWhile isPySpace l.reverse := by
    simp [List.dropWhile, isPySpace]
  rw [this]

theorem mkFastqRead_newline (a b c l : List Char) :
    mkFastqRead a b c (l ++ ['\n']) = mkFastqRead a b c l := by
  unfold mkFastqRead
  rw [pyStrip_append_newline]

theorem pyStrip_sandwich {w1 core w2 : List Char}
    (hw1 : ∀ c ∈ w1, isPySpace c = true) (hw2 : ∀ c ∈ w2, isPySpace c = true)
    (hcore : core ≠ [])
    (hhead : ∀ c, core.head? = some c → isPySpace c = false)
    (hlast : ∀ c, core.getLast? = some c → isPySpace c = false) :
    pyStrip (w1 ++ core ++ w2) = core := by
  obtain ⟨c0, ct, rfl⟩ : ∃ c0 ct, core = c0 :: ct := by
    cases core with
    | nil => exact absurd rfl hcore
    | cons c0 ct => exact ⟨c0, ct, rfl⟩
  obtain ⟨cl, rt, hrev⟩ : ∃ cl rt, (c0 :: ct).reverse = cl :: rt := by
    cases hr : (c0 :: ct).reverse with
    | nil => exact absurd hr (by simp)
    | cons cl rt => exact ⟨cl, rt, rfl⟩
  have hh : isPySpace c0 = false := hhead c0 rfl
  have hl : isPySpace cl = false := by
    apply hlast
    rw [← List.head?_reverse, hrev]
    rfl
  unfold pyStrip pyLStrip pyRStrip
  have hrw : (w1 ++ (c0 :: ct) ++ w2).reverse =
      w2.reverse ++ ((c0 :: ct).reverse ++ w1.reverse) := by
    simp
  rw [hrw, dropWhile_append_all _ (fun c hc => hw2 c (by simpa using hc)), hrev,
    List.cons_append, dropWhile_cons_neg _ hl]
  have : (cl :: (rt ++ w1.reverse)).reverse = w1 ++ (c0 :: ct) := by
    rw [← List.cons_append, ← hrev]
    simp
  rw [this, dropWhile_append_all _ hw1, dropWhile_cons_neg _ hh]

theorem count_encodeLines :
    ∀ {ls : List (List Char)}, (∀ l ∈ ls, '\n' ∉ l) →
      (encodeLines ls).count '\n' = ls.length := by
  intro ls
  induction ls with
  | nil => intro _; rfl
  | cons l rest ih =>
    intro h
    simp only [encodeLines, List.length_cons]
    rw [List.count_append, List.count_cons_self,
      List.count_eq_zero.mpr (h l (by simp)), ih (fun x hx => h x (by simp [hx]))]
    omega

theorem encodeNoFinal_cons {ls : List (List Char)} (l : List Char) (h : ls ≠ []) :
    encodeNoFinal (l :: ls) = l ++ '\n' :: encodeNoFinal ls := by
  cases ls with
  | nil => exact absurd rfl h
  | cons l2 rest => rfl

theorem count_encodeNoFinal :
    ∀ {ls : List (List Char)}, ls ≠ [] → (∀ l ∈ ls, '\n' ∉ l) →
      (encodeNoFinal ls).count '\n' + 1 = ls.length := by
  intro ls
  induction ls with
  | nil => intro h _; exact absurd rfl h
  | cons l rest ih =>
    intro _ h
    cases rest with
    | nil =>
      simp only [encodeNoFinal, List.length_cons, List.length_nil]
      rw [List.count_eq_zero.mpr (h l (by simp))]
    | cons l2 rest2 =>
      rw [encodeNoFinal_cons l (by simp), List.count_append, List.count_cons_self,
        List.count_eq_zero.mpr (h l (by simp))]
      simp only [List.length_cons] at *
      have := ih (by simp) (fun x hx => h x (by simp [hx]))
      omega

theorem bufCount_eq (s : List Char) (acc : Nat) :
    bufCount acc s = acc + s.count '\n' := by
  rw [bufCount]
  by_cases hs : s = []
  · rw [if_pos hs, hs]
    simp
  · rw [if_neg hs, bufCount_eq (s.drop 1048576) (acc + (s.take 1048576).count '\n')]
    have : (s.take 1048576).count '\n' + (s.drop 1048576).count '\n' = s.count '\n' := by
      rw [← List.count_append, List.take_append_drop]
    omega
termination_by s.length
decreasing_by
  simp only [List.length_drop]
  have : 0 < s.length := List.length_pos.mpr hs
  omega

theorem nreads_spec (content : List Char) :
    nreads content = if content.count '\n' % 4 = 0 then
      Except.ok (content.count '\n' / 4) else Except.error badReadCountMsg := by
  unfold nreads
  rw [bufCount_eq]
  simp only [Nat.zero_add, ite_not]

theorem getLast?_cons_of_ne_nil {l : List Char} {ls : List (List Char)}
    (h : ls ≠ []) : (l :: ls).getLast? = ls.getLast? := by
  cases ls with
  | nil => exact absurd rfl h
  | cons l2 rest => exact List.getLast?_cons_cons

theorem drain_encodeNoFinal :
    ∀ (n : Nat) (ls : List (List Char)), (∀ l ∈ ls, '\n' ∉ l) →
      ls.length = 4 * (n + 1) → ls.getLast? ≠ some [] →
      drain (encodeNoFinal ls) = recordsOf ls := by
  intro n
  induction n with
  | zero =>
    intro ls hnl hlen hlast
    rcases ls with _ | ⟨l1, _ | ⟨l2, _ | ⟨l3, _ | ⟨l4, rest⟩⟩⟩⟩ <;>
      simp only [List.length_nil, List.length_cons] at hlen <;> try omega
    have hrest : rest = [] := List.eq_nil_of_length_eq_zero (by omega)
    subst hrest
    have hm1 : '\n' ∉ l1 := hnl l1 (by simp)
    have hm2 : '\n' ∉ l2 := hnl l2 (by simp)
    have hm3 : '\n' ∉ l3 := hnl l3 (by simp)
    have hm4 : '\n' ∉ l4 := hnl l4 (by simp)
    have hne4 : l4 ≠ [] := by
      intro hc
      apply hlast
      subst hc
      rfl
    have hstep : encodeNoFinal [l1, l2, l3, l4] =
        l1 ++ '\n' :: (l2 ++ '\n' :: (l3 ++ '\n' :: l4)) := by
      simp [encodeNoFinal, encodeNoFinal_cons]
    rw [hstep, drain_some (nextRead_last hm1 hm2 hm3 hm4 hne4), drain_nil]
    simp only [recordsOf]
    rw [mkFastqRead_newline]
  | succ k ih =>
    intro ls hnl hlen hlast
    rcases ls with _ | ⟨l1, _ | ⟨l2, _ | ⟨l3, _ | ⟨l4, rest⟩⟩⟩⟩ <;>
      simp only [List.length_nil, List.length_cons] at hlen <;> try omega
    have hrest : rest ≠ [] := by
      intro hc
      rw [hc] at hlen
      simp only [List.length_nil] at hlen
      omega
    have hm1 : '\n' ∉ l1 := hnl l1 (by simp)
    have hm2 : '\n' ∉ l2 := hnl l2 (by simp)
    have hm3 : '\n' ∉ l3 := hnl l3 (by simp)
    have hm4 : '\n' ∉ l4 := hnl l4 (by simp)
    have hstep : encodeNoFinal (l1 :: l2 :: l3 :: l4 :: rest) =
        l1 ++ '\n' :: (l2 ++ '\n' :: (l3 ++ '\n' :: (l4 ++ '\n' :: encodeNoFinal rest))) := by
      rw [encodeNoFinal_cons l1 (by simp), encodeNoFinal_cons l2 (by simp),
        encodeNoFinal_cons l3 (by simp), encodeNoFinal_cons l4 hrest]
    rw [hstep, drain_some (nextRead_cycle (encodeNoFinal rest) hm1 hm2 hm3 hm4)]
    simp only [recordsOf, List.cons.injEq, true_and]
    apply ih rest (fun l hl => hnl l (by simp [hl])) (by omega)
    rw [getLast?_cons_of_ne_nil (by simp), getLast?_cons_of_ne_nil (by simp),
      getLast?_cons_of_ne_nil (by simp), getLast?_cons_of_ne_nil hrest] at hlast
    exact hlast

/-- Shape asserted by the claim for Grammar A, transcribed from the claim's
words: every field except the trailing index non-empty and colon-free
(including the y coordinate), and an index that may be empty and may
contain any non-newline characters. -/
def illumina18ClaimShape (s : List Char) : Prop :=
  ∃ f1 f2 f3 f4 f5 f6 y p b c idx : List Char,
    s = '@' :: (f1 ++ ':' :: (f2 ++ ':' :: (f3 ++ ':' :: (f4 ++ ':' :: (f5 ++
      ':' :: (f6 ++ ':' :: (y ++ ' ' :: (p ++ ':' :: (b ++ ':' :: (c ++
      ':' :: idx)))))))))) ∧
    f1 ≠ [] ∧ ':' ∉ f1 ∧ f2 ≠ [] ∧ ':' ∉ f2 ∧ f3 ≠ [] ∧ ':' ∉ f3 ∧
    f4 ≠ [] ∧ ':' ∉ f4 ∧ f5 ≠ [] ∧ ':' ∉ f5 ∧ f6 ≠ [] ∧ ':' ∉ f6 ∧
    y ≠ [] ∧ ':' ∉ y ∧ p ≠ [] ∧ ':' ∉ p ∧ b ≠ [] ∧ ':' ∉ b ∧
    c ≠ [] ∧ ':' ∉ c ∧ '\n' ∉ idx

/-- Shape asserted by the claim for Grammar B, transcribed from the claim's
words: five colon-delimited fields, a hash-delimited multiplex index of
exactly one character, and a slash-delimited pair id that is the non-empty
remainder of the line. -/
def illuminaClaimShape (s : List Char) : Prop :=
  ∃ (i l t x y : List Char) (m : Char) (p : List Char),
    s = '@' :: (i ++ ':' :: (l ++ ':' :: (t ++ ':' :: (x ++ ':' :: (y ++
      '#' :: m :: '/' :: p))))) ∧
    i ≠ [] ∧ ':' ∉ i ∧ l ≠ [] ∧ ':' ∉ l ∧ t ≠ [] ∧ ':' ∉ t ∧
    x ≠ [] ∧ ':' ∉ x ∧ y ≠ [] ∧ ':' ∉ y ∧ p ≠ []

/-- Removal of exactly one trailing line terminator and nothing else,
transcribed from the claim's words about record construction. -/
def rstripNewline (l : List Char) : List Char :=
  if l.getLast? = some '\n' then l.dropLast else l

/-- One well-formed 4-line FASTQ group used to instantiate the hypotheses
of the stream theorems. -/
def exLines : List (List Char) :=
  [String.toList "@r1", String.toList "ACGT", String.toList "+",
    String.toList "!!!!"]

theorem classify_format_illumina18 {s : List Char} {g : Groups18}
    (h : match18 (pyStrip s) = some g) :
    (classify s).format = SeqFormat.illumina18 := by
  unfold SequenceIdentifier.format
  rw [classify_parse_illumina18 h]

theorem classify_format_illumina {s : List Char} {g : GroupsIllumina}
    (h18 : match18 (pyStrip s) = none) (h : matchIllumina (pyStrip s) = some g) :
    (classify s).format = SeqFormat.illumina := by
  unfold SequenceIdentifier.format
  rw [classify_parse_illumina h18 h]

theorem classify_format_unrecognized {s : List Char}
    (h18 : match18 (pyStrip s) = none) (hil : matchIllumina (pyStrip s) = none) :
    (classify s).format = SeqFormat.unrecognized := by
  unfold SequenceIdentifier.format
  rw [classify_parse_unrecognized h18 hil]

/-- C1: for every identifier line, serializing the result of classifying it
reproduces the trimmed input byte-for-byte: the canonical layout rebuilt by
`__repr__` for the two known grammars, or the stored stripped text for an
unrecognized identifier, equals Python `str(seqid).strip()` of the input. -/
theorem serialize_classify_roundtrip (s : List Char) :
    (classify s).serialize = pyStrip s := by
  cases h18 : match18 (pyStrip s) with
  | some g =>
    have hp := classify_parse_illumina18 h18
    have h1 := (match18_sound h18).1
    unfold SequenceIdentifier.serialize
    rw [hp]
    exact h1.symm
  | none =>
    cases hIl : matchIllumina (pyStrip s) with
    | some g =>
      have hp := classify_parse_illumina h18 hIl
      have h1 := (matchIllumina_sound hIl).1
      unfold SequenceIdentifier.serialize
      rw [hp]
      exact h1.symm
    | none =>
      have hp := classify_parse_unrecognized h18 hIl
      unfold SequenceIdentifier.serialize
      rw [hp]
      exact classify_seqid s

/-- C2: for a valid FASTQ input of exactly 4n newline-terminated lines, the
record stream yields exactly n records, one per 4-line group and in source
order, and then terminates normally (the model of `FastqIterator.next` has
no failure outcome other than the clean `StopIteration`). -/
theorem recordStream_yields_all_records (n : Nat) (ls : List (List Char))
    (hnl : ∀ l ∈ ls, '\n' ∉ l) (hlen : ls.length = 4 * n) :
    drain (encodeLines ls) = recordsOf ls ∧
      (drain (encodeLines ls)).length = n := by
  have h := drain_encodeLines n ls hnl hlen
  exact ⟨h, by rw [h]; exact recordsOf_length n ls hlen⟩

theorem recordStream_yields_all_records_witness :
    (∀ l ∈ exLines, '\n' ∉ l) ∧ exLines.length = 4 * 1 ∧
      (drain (encodeLines exLines) = recordsOf exLines ∧
        (drain (encodeLines exLines)).length = 1) :=
  ⟨by decide, by decide,
    recordStream_yields_all_records 1 exLines (by decide) (by decide)⟩

/-- C3: the claim says a source that ends mid-cycle must raise a
MalformedRecord error.  The code does not: `FastqIterator.next` (lines
90-103) sees an empty fourth `readline` result, discards the partial lines
already read, and raises `StopIteration` exactly as for a clean end of
file.  Here the two-line source `"@r1\nACGT\n"` starts a cycle whose lines
3 and 4 are missing, yet one advance reports end of iteration and draining
yields no record and no error. -/
theorem truncated_input_silently_terminates :
    nextRead (String.toList "@r1\nACGT\n") = none ∧
      drain (String.toList "@r1\nACGT\n") = [] :=
  ⟨rfl, drain_none rfl⟩

/-- C4: the claim says the handle is closed at exhaustion exactly when the
stream opened it itself from a path.  The code has the condition inverted:
line 101 reads `if self.__fastq_file is None: self.__fp.close()`, so an
iterator built from an externally supplied handle closes that handle at
EOF, while an iterator built from a path never closes the file it opened. -/
theorem eof_close_ownership_inverted :
    ((FastqIterator.fromHandle []).nextStep).2.closed = true ∧
      ((FastqIterator.fromPath (String.toList "reads.fastq") []).nextStep).2.closed
        = false :=
  ⟨rfl, rfl⟩

/-- C5 counterexample: the claim says record construction strips exactly
one trailing line terminator and no other whitespace from lines 2-4.  The
code applies Python `str.strip()` (lines 128-130), so the sequence line
`" ACGT \n"` loses its leading and trailing spaces as well, not only the
terminator. -/
theorem strip_removes_edge_whitespace :
    (mkFastqRead (String.toList "@r1\n") (String.toList " ACGT \n")
        (String.toList "+\n") (String.toList "!!!!\n")).sequence ≠
      rstripNewline (String.toList " ACGT \n") := by
  decide

/-- C5 amended: record construction strips all leading and trailing Python
whitespace (space, tab, LF, VT, FF, CR) from each of lines 2-4, leaving the
whitespace-free core of the line. -/
theorem record_fields_strip_all_edge_whitespace
    (l1 lA lB w1 core w2 : List Char)
    (hw1 : ∀ c ∈ w1, isPySpace c = true) (hw2 : ∀ c ∈ w2, isPySpace c = true)
    (hcore : core ≠ [])
    (hhead : ∀ c, core.head? = some c → isPySpace c = false)
    (hlast : ∀ c, core.getLast? = some c → isPySpace c = false) :
    (mkFastqRead l1 (w1 ++ core ++ w2) lA lB).sequence = core ∧
      (mkFastqRead l1 lA (w1 ++ core ++ w2) lB).optid = core ∧
      (mkFastqRead l1 lA lB (w1 ++ core ++ w2)).quality = core := by
  have h := pyStrip_sandwich hw1 hw2 hcore hhead hlast
  exact ⟨h, h, h⟩

theorem record_fields_strip_all_edge_whitespace_witness :
    (mkFastqRead (String.toList "@r\n")
        ([' '] ++ String.toList "AC GT" ++ [' ', '\n'])
        (String.toList "+\n") (String.toList "!\n")).sequence =
        String.toList "AC GT" ∧
      (mkFastqRead (String.toList "@r\n") (String.toList "+\n")
        ([' '] ++ String.toList "AC GT" ++ [' ', '\n'])
        (String.toList "!\n")).optid = String.toList "AC GT" ∧
      (mkFastqRead (String.toList "@r\n") (String.toList "+\n")
        (String.toList "!\n")
        ([' '] ++ String.toList "AC GT" ++ [' ', '\n'])).quality =
        String.toList "AC GT" :=
  record_fields_strip_all_edge_whitespace (String.toList "@r\n")
    (String.toList "+\n") (String.toList "!\n") [' '] (String.toList "AC GT")
    [' ', '\n'] (by decide) (by decide) (by decide) (by decide) (by decide)

/-- C6 counterexample: the claim states that an index field may contain any
non-newline characters, so that an identifier whose trailing index contains
a colon still classifies as illumina18.  The regex group for the index is
`([^\:]*)`, so `"@a:b:c:d:e:f:g 1:N:0:A:C"`, which has the claimed shape
with index `"A:C"`, is not matched by ILLUMINA18_SEQID and classifies as
unrecognized. -/
theorem illumina18_claim_shape_mismatch :
    illumina18ClaimShape (String.toList "@a:b:c:d:e:f:g 1:N:0:A:C") ∧
      (classify (String.toList "@a:b:c:d:e:f:g 1:N:0:A:C")).format ≠
        SeqFormat.illumina18 := by
  constructor
  · exact ⟨['a'], ['b'], ['c'], ['d'], ['e'], ['f'], ['g'], ['1'], ['N'], ['0'],
      ['A', ':', 'C'], by decide⟩
  · decide

/-- C6 amended: classification yields illumina18 exactly on the strings of
shape `@f1:f2:f3:f4:f5:f6:y p:b:c:idx` in which the first six fields and
the three fields after the pair separator are non-empty and colon-free, the
y field is non-empty and space-free (it may contain colons), and the index
may be empty but may not contain a colon — the character classes of
ILLUMINA18_SEQID, applied to the stripped line. -/
theorem illumina18_classification_exact (s : List Char) :
    (classify s).format = SeqFormat.illumina18 ↔
      ∃ g : Groups18, pyStrip s = rebuild18 g ∧ WF18 g := by
  constructor
  · intro hfmt
    cases h18 : match18 (pyStrip s) with
    | some g => exact ⟨g, match18_sound h18⟩
    | none =>
      exfalso
      cases hIl : matchIllumina (pyStrip s) with
      | some g =>
        rw [classify_format_illumina h18 hIl] at hfmt
        exact absurd hfmt (by decide)
      | none =>
        rw [classify_format_unrecognized h18 hIl] at hfmt
        exact absurd hfmt (by decide)
  · rintro ⟨g, heq, hwf⟩
    have hm := match18_complete hwf
    rw [← heq] at hm
    exact classify_format_illumina18 hm

/-- C7 counterexample: the claim requires only that the multiplex index be
exactly one character, so `"@a:b:c:d:e#//1"` (multiplex index `/`, pair id
`1`) has the claimed shape; but the regex group for the multiplex index is
`([^/])`, which excludes the slash, so the code classifies this string as
unrecognized, not illumina. -/
theorem illumina_claim_shape_mismatch :
    illuminaClaimShape (String.toList "@a:b:c:d:e#//1") ∧
      (classify (String.toList "@a:b:c:d:e#//1")).format ≠
        SeqFormat.illumina := by
  constructor
  · exact ⟨['a'], ['b'], ['c'], ['d'], ['e'], '/', ['1'], by decide⟩
  · decide

/-- C7 amended: classification yields illumina exactly on the stripped
strings of shape `@i:l:t:x:y#m/p` in which the first four fields are
non-empty and colon-free, the fifth field is non-empty and hash-free (it
may contain colons), the multiplex index is one character other than `/`,
and the pair id is a non-empty newline-free remainder — and which are not
matched by Grammar A, because Grammar A is tried first. -/
theorem illumina_classification_exact (s : List Char) :
    (classify s).format = SeqFormat.illumina ↔
      ((∃ g : GroupsIllumina, pyStrip s = rebuildIllumina g ∧ WFIllumina g) ∧
        ¬∃ g : Groups18, pyStrip s = rebuild18 g ∧ WF18 g) := by
  constructor
  · intro hfmt
    cases h18 : match18 (pyStrip s) with
    | some g =>
      rw [classify_format_illumina18 h18] at hfmt
      exact absurd hfmt (by decide)
    | none =>
      cases hIl : matchIllumina (pyStrip s) with
      | some g =>
        refine ⟨⟨g, matchIllumina_sound hIl⟩, ?_⟩
        rintro ⟨g18, heq, hwf⟩
        have hm := match18_complete hwf
        rw [← heq, h18] at hm
        exact absurd hm (by simp)
      | none =>
        rw [classify_format_unrecognized h18 hIl] at hfmt
        exact absurd hfmt (by decide)
  · rintro ⟨⟨g, heq, hwf⟩, hnot18⟩
    have hIl := matchIllumina_complete hwf
    rw [← heq] at hIl
    cases h18 : match18 (pyStrip s) with
    | some g18 => exact absurd ⟨g18, match18_sound h18⟩ hnot18
    | none => exact classify_format_illumina h18 hIl

/-- C8: `nreads` accumulates the newline count of the source in 1 MiB
chunks (the total line count in the sense of its chunked counting loop,
lines 256-261), raises its malformed-file exception when that count is not
divisible by 4, and otherwise returns the count divided by 4 with integer
division (lines 264-266). -/
theorem nreads_line_count_div4 (content : List Char) :
    nreads content = if content.count '\n' % 4 = 0 then
      Except.ok (content.count '\n' / 4) else Except.error badReadCountMsg :=
  nreads_spec content

/-- C9: on a well-formed FASTQ input of 4n newline-terminated lines, the
fast line-counting path returns exactly the number of records obtained by
fully draining the record stream over the same content. -/
theorem nreads_agrees_with_stream (n : Nat) (ls : List (List Char))
    (hnl : ∀ l ∈ ls, '\n' ∉ l) (hlen : ls.length = 4 * n) :
    nreads (encodeLines ls) = Except.ok ((drain (encodeLines ls)).length) := by
  rw [nreads_spec, count_encodeLines hnl, hlen, drain_encodeLines n ls hnl hlen,
    recordsOf_length n ls hlen]
  have h4 : 4 * n % 4 = 0 := Nat.mul_mod_right 4 n
  rw [if_pos h4, Nat.mul_div_cancel_left n (by norm_num)]

theorem nreads_agrees_with_stream_witness :
    nreads (encodeLines exLines) = Except.ok ((drain (encodeLines exLines)).length) :=
  nreads_agrees_with_stream 1 exLines (by decide) (by decide)

/-- C10: for content consisting of n+1 complete 4-line records whose final
line lacks the trailing newline, `nreads` counts only newline characters,
so it sees 4(n+1)-1 lines and raises the not-divisible-by-4 error, while
draining the record stream over the same content yields all n+1 records
without error (the fourth `readline` of the last cycle returns the
unterminated non-empty remainder). -/
theorem missing_final_newline_divergence (n : Nat) (ls : List (List Char))
    (hnl : ∀ l ∈ ls, '\n' ∉ l) (hlen : ls.length = 4 * (n + 1))
    (hlast : ls.getLast? ≠ some []) :
    (encodeNoFinal ls).count '\n' = 4 * (n + 1) - 1 ∧
      nreads (encodeNoFinal ls) = Except.error badReadCountMsg ∧
      drain (encodeNoFinal ls) = recordsOf ls ∧
      (drain (encodeNoFinal ls)).length = n + 1 := by
  have hne : ls ≠ [] := by
    intro hc
    rw [hc] at hlen
    simp only [List.length_nil] at hlen
    omega
  have hcount := count_encodeNoFinal hne hnl
  rw [hlen] at hcount
  have hc1 : (encodeNoFinal ls).count '\n' = 4 * (n + 1) - 1 := by omega
  have hdrain := drain_encodeNoFinal n ls hnl hlen hlast
  refine ⟨hc1, ?_, hdrain, ?_⟩
  · rw [nreads_spec, hc1, if_neg (by omega)]
  · rw [hdrain]
    exact recordsOf_length (n + 1) ls hlen

theorem missing_final_newline_divergence_witness :
    (encodeNoFinal exLines).count '\n' = 4 * (0 + 1) - 1 ∧
      nreads (encodeNoFinal exLines) = Except.error badReadCountMsg ∧
      drain (encodeNoFinal exLines) = recordsOf exLines ∧
      (drain (encodeNoFinal exLines)).length = 0 + 1 :=
  missing_final_newline_divergence 0 exLines (by decide) (by decide) (by decide)

/-- Validation against the source's own unit test
`test_read_illumina18_id` (FASTQFile.py lines 339-359): the documented
Illumina-1.8+ example classifies as illumina18 with the documented fields
and round-trips. -/
theorem source_test_illumina18_id :
    match18 (String.toList "@EAS139:136:FC706VJ:2:2104:15343:197393 1:Y:18:ATCACG") =
      some ⟨String.toList "EAS139", String.toList "136", String.toList "FC706VJ",
        String.toList "2", String.toList "2104", String.toList "15343",
        String.toList "197393", String.toList "1", String.toList "Y",
        String.toList "18", String.toList "ATCACG"⟩ ∧
    (classify (String.toList "@EAS139:136:FC706VJ:2:2104:15343:197393 1:Y:18:ATCACG")).serialize =
      String.toList "@EAS139:136:FC706VJ:2:2104:15343:197393 1:Y:18:ATCACG" := by
  constructor <;> decide

/-- Validation against the source's unit test
`test_read_illumina18_id_no_index_sequence` (lines 361-381): an empty
trailing barcode still classifies as illumina18 with an empty (not absent)
index sequence. -/
theorem source_test_illumina18_no_index :
    (match18 (String.toList "@73D9FA:3:FC:1:1:7507:1000 1:N:0:")).map
        Groups18.index_sequence = some [] ∧
    (classify (String.toList "@73D9FA:3:FC:1:1:7507:1000 1:N:0:")).format =
      SeqFormat.illumina18 := by
  constructor <;> decide

/-- Validation against the source's unit test `test_read_illumina_id`
(lines 383-399): the documented legacy-Illumina example classifies as
illumina with multiplex index `0` and pair id `1`. -/
theorem source_test_illumina_id :
    matchIllumina (String.toList "@HWUSI-EAS100R:6:73:941:1973#0/1") =
      some ⟨String.toList "HWUSI-EAS100R", String.toList "6", String.toList "73",
        String.toList "941", String.toList "1973", '0', String.toList "1"⟩ ∧
    (classify (String.toList "@HWUSI-EAS100R:6:73:941:1973#0/1")).format =
      SeqFormat.illumina := by
  constructor <;> decide

/-- Validation against the source's unit test `test_unrecognised_id_format`
(lines 401-409): an identifier matching neither grammar keeps `format`
unset and serializes to the verbatim input. -/
theorem source_test_unrecognized_id :
    (classify (String.toList "@SEQID")).format = SeqFormat.unrecognized ∧
    (classify (String.toList "@SEQID")).serialize = String.toList "@SEQID" := by
  constructor <;> decide
